import Mathlib

/-!
Verification of the tcdicn ICN node runtime (src/tcdicn.py).

The Python module is shallowly embedded below.  Wall-clock timestamps,
scores, deadlines and EOLs (Python floats) are modelled as integers: the
claims under study only depend on their ordering and on exact additive
constants (DEADLINE_EXT), never on fractional values.  Python dicts are
modelled as association lists in insertion order (`alookup` / `alistSet` /
`aerase` mirror `d[k]`, `d[k] = v` and `del d[k]`); expiry timers are
modelled by the stored eol value together with explicit timeout
transitions; asyncio scheduling is modelled by invoking the handlers as
state transitions in program order.
-/

namespace Tcdicn

/-- Python dict lookup `d[k]` (first binding wins; dicts never hold
duplicate keys, general association lists may). -/
def alookup {α β : Type} [DecidableEq α] : List (α × β) → α → Option β
  | [], _ => none
  | (k, v) :: t, a => if a = k then some v else alookup t a

/-- Python dict assignment `d[k] = v`: replace the first binding of `k` in
place, append a fresh binding otherwise (insertion order is preserved). -/
def alistSet {α β : Type} [DecidableEq α] : List (α × β) → α → β → List (α × β)
  | [], a, b => [(a, b)]
  | (k, v) :: t, a, b => if a = k then (a, b) :: t else (k, v) :: alistSet t a b

/-- Python dict deletion `del d[k]`: remove the binding of `k`.  A dict
holds each key at most once, so removing every binding of `k` coincides
with removing the one binding on any list that represents a dict, and it
leaves no binding of `k` behind, exactly as in Python. -/
def aerase {α β : Type} [DecidableEq α] : List (α × β) → α → List (α × β)
  | [], _ => []
  | (k, v) :: t, a => if a = k then aerase t a else (k, v) :: aerase t a

-- ------------------------------------------------------------------
-- Wire data model (src/tcdicn.py lines 24-298)
-- ------------------------------------------------------------------

/-- VERSION: the protocol version string included in all communications. -/
def VERSION : String := "0.2"

/-- BROADCAST_CAPACITY: soft maximum datagram size in bytes. -/
def BROADCAST_CAPACITY : Nat := 512

/-- MAX_SCORE: score clients give themselves. -/
def MAX_SCORE : Int := 10000

/-- DEADLINE_EXT: seconds to wait before retrying after exhausting routes. -/
def DEADLINE_EXT : Int := 10

/-- Addr = Tuple[str, int]: peers are identified by host and port. -/
abbrev Addr := String × Nat

/-- One scored next-hop entry of a route list (the Python per-client route
lists hold dicts `\x7b"addr": addr, "score": score\x7d`). -/
structure Route where
  addr : Addr
  score : Int
deriving DecidableEq, Repr

/-- AdvertItem: a client advert (client name, published labels, route
score, TTP, EOL).  The internal `timer` task is modelled by the eol. -/
structure AdvertItem where
  client : String
  labels : List String
  score : Int
  ttp : Int
  eol : Int
deriving DecidableEq, Repr

/-- GetItem: an interest in data of `label` published after `after`. -/
structure GetItem where
  client : String
  label : String
  after : Int
  ttp : Int
  eol : Int
deriving DecidableEq, Repr

/-- SetItem: a publication of `data` on `label` at time `at`, to be
forwarded towards the `(ttp, client)` pairs in `dst`.  `last` is the
node-internal last-consumed time and `fulfil` models whether a local
`get()` future is pending on this entry (`fulfil = none` in Python is
`false` here); both are node-internal and start at `0` / absent. -/
structure SetItem where
  label : String
  data : Option String
  «at» : Int
  dst : List (Int × String)
  last : Int := 0
  fulfil : Bool := false
deriving DecidableEq, Repr

/-- A decoded message item as produced by `Message.from_dict`: wire set
items carry no `last`/`fulfil` (the constructor initialises them). -/
inductive WireItem where
  | peer (eol : Int)
  | advert (a : AdvertItem)
  | get (g : GetItem)
  | set (label : String) (data : Option String) («at» : Int) (dst : List (Int × String))
deriving DecidableEq, Repr

/-- A decoded message: a version string and item list (`Message`). -/
structure MsgDict where
  v : String
  items : List WireItem
deriving DecidableEq, Repr

/-- Items carried on the unicast send queue (get and set items). -/
inductive QItem where
  | get (g : GetItem)
  | set (s : SetItem)
deriving DecidableEq, Repr

/-- One entry of the unicast send queue:
`(deadline, target client, ordered routes, item)`.  The target client is
`None` for the non-main-to-main push. -/
structure SendEntry where
  deadline : Int
  client : Option String
  routes : List Route
  item : QItem
deriving DecidableEq, Repr

/-- Node state: the mutable tables of `Node.__init__` that the claims are
about (defaults mirror the empty initial state).  The two queues are kept
as lists in insertion order; the priority discipline is applied by the
batch flushers, which receive the entries in pop order. -/
structure NodeState where
  isMain : Bool := true
  dport : Nat := 33333
  advert : Option AdvertItem := none
  peers : List (Addr × Int) := []
  clients : List (String × AdvertItem) := []
  interests : List (String × List (String × GetItem)) := []
  routes : List (String × List Route) := []
  contentStore : List (String × SetItem) := []
  sendQueue : List SendEntry := []
  broadcastQueue : List (Int × WireItem) := []
deriving DecidableEq, Repr

-- ------------------------------------------------------------------
-- Protocol core handlers (src/tcdicn.py lines 872-1082)
-- ------------------------------------------------------------------

/-- Node.on_peer (lines 909-930): cancel any previous timer and
unconditionally store the incoming peer entry; the freshly installed
expiry timer is modelled by the stored eol value. -/
def on_peer (s : NodeState) (addr : Addr) (eol : Int) : NodeState :=
  { s with peers := alistSet s.peers addr eol }

/-- The peer-timer expiry callback inside on_peer (lines 920-927): delete
the peer entry and, for every client, delete the first route entry whose
next-hop is this address. -/
def on_peer_timeout (s : NodeState) (addr : Addr) : NodeState :=
  { s with peers := aerase s.peers addr,
           routes := s.routes.map (fun kv =>
             (kv.1, kv.2.eraseP (fun r => decide (r.addr = addr)))) }

/-- The order used by `self.routes[client].sort(key=score, reverse=True)`:
score descending.  Python's list.sort is stable, and a stable sort by a
total preorder has a unique result, so the stable `List.insertionSort`
below computes exactly what Python's stable sort computes. -/
def routeGe (a b : Route) : Prop := b.score ≤ a.score

instance : DecidableRel routeGe :=
  fun a b => inferInstanceAs (Decidable (b.score ≤ a.score))

instance : IsTotal Route routeGe := ⟨fun a b => le_total b.score a.score⟩

instance : IsTrans Route routeGe := ⟨fun _ _ _ hab hbc => le_trans hbc hab⟩

/-- The route update of on_advert (lines 942-950): overwrite the score of
the first entry matching the sender address, else append a new entry. -/
def updateRouteList : List Route → Addr → Int → List Route
  | [], addr, sc => [⟨addr, sc⟩]
  | r :: t, addr, sc =>
    if r.addr = addr then { r with score := sc } :: t
    else r :: updateRouteList t addr sc

/-- The interest propagation of on_advert (lines 975-985): for every label
newly added since the previous stored advert which has active interests,
enqueue each interest towards the advertised client. -/
def on_advert_propagate (s : NodeState) (a : AdvertItem) (now : Int)
    (previousLabels : List String) : NodeState :=
  a.labels.foldl (fun st label =>
    if previousLabels.contains label then st
    else
      match alookup st.interests label with
      | some bucket =>
        bucket.foldl (fun st2 kv =>
          { st2 with sendQueue := st2.sendQueue ++
              [⟨now + kv.2.ttp, some a.client,
                (alookup st2.routes a.client).getD [], QItem.get kv.2⟩] }) st
      | none => st) s

/-- The accept path of on_advert (lines 966-991): replace the client
entry, install its timer, propagate matching interests for labels newly
added since the previous advert, and enqueue the advert for broadcast. -/
def on_advert_accept (s : NodeState) (a : AdvertItem) (now : Int)
    (previousLabels : List String) : NodeState :=
  let s2 := on_advert_propagate
    { s with clients := alistSet s.clients a.client a } a now previousLabels
  { s2 with broadcastQueue := s2.broadcastQueue ++ [(now + a.ttp, WireItem.advert a)] }

/-- The body of on_advert after the self-advert check (lines 941-991):
update and re-sort the route list, then refresh the client entry unless
the incoming eol does not strictly exceed the stored one. -/
def on_advert_core (s : NodeState) (addr : Addr) (a : AdvertItem) (now : Int) : NodeState :=
  let rs0 := (alookup s.routes a.client).getD []
  let rs1 := List.insertionSort routeGe (updateRouteList rs0 addr a.score)
  let s1 := { s with routes := alistSet s.routes a.client rs1 }
  match alookup s1.clients a.client with
  | some stored =>
    if a.eol ≤ stored.eol then s1
    else on_advert_accept s1 a now stored.labels
  | none => on_advert_accept s1 a now []

/-- Node.on_advert (lines 932-991): synthesize a peer entry for unknown
senders, ignore adverts for our own client, then run the core. -/
def on_advert (s : NodeState) (addr : Addr) (a : AdvertItem) (now : Int) : NodeState :=
  let s1 := if (alookup s.peers addr).isNone then on_peer s addr a.eol else s
  match s1.advert with
  | some own => if own.client = a.client then s1 else on_advert_core s1 addr a now
  | none => on_advert_core s1 addr a now

/-- The client-advert expiry callback inside on_advert (lines 967-970):
delete the client entry and the client's whole route binding
(`del self.clients[advert.client]; del self.routes[advert.client]`). -/
def on_client_timeout (s : NodeState) (client : String) : NodeState :=
  { s with clients := aerase s.clients client,
           routes := aerase s.routes client }

/-- The publisher push of on_get (lines 1020-1029): enqueue the get
towards every known client whose advertised labels include g.label,
excluding our own client. -/
def on_get_toward_publishers (s : NodeState) (g : GetItem) (now : Int) : NodeState :=
  s.clients.foldl (fun st kv =>
    if kv.2.labels.contains g.label &&
        (match st.advert with
         | none => true
         | some own => decide (own.client ≠ kv.1)) then
      { st with sendQueue := st.sendQueue ++
          [⟨now + g.ttp, some kv.1, (alookup st.routes kv.1).getD [], QItem.get g⟩] }
    else st) s

/-- The non-main push of on_get (lines 1031-1036): a non-main node also
queues the get towards the device's main node. -/
def on_get_toward_main (s : NodeState) (g : GetItem) (now : Int) : NodeState :=
  if s.isMain then s
  else { s with sendQueue := s.sendQueue ++ [⟨now + g.ttp, none, [], QItem.get g⟩] }

/-- The local fulfilment of on_get (lines 1038-1047): when the stored
content is newer than g.after, redirect the stored item's dst to this
requester and enqueue that item towards the requesting client. -/
def on_get_fulfil_local (s : NodeState) (g : GetItem) (now : Int) : NodeState :=
  match alookup s.contentStore g.label with
  | some cs =>
    if g.after < cs.«at» then
      let cs1 := { cs with dst := [(g.ttp, g.client)] }
      { s with contentStore := alistSet s.contentStore g.label cs1,
               sendQueue := s.sendQueue ++
                 [⟨now + g.ttp, some g.client,
                   (alookup s.routes g.client).getD [], QItem.set cs1⟩] }
    else s
  | none => s

/-- The accept path of on_get: store the interest, push it towards
publishers and (on non-main nodes) the main node, then try to fulfil it
from the local content store. -/
def on_get_accept (s : NodeState) (g : GetItem) (now : Int)
    (bucket : List (String × GetItem)) : NodeState :=
  on_get_fulfil_local
    (on_get_toward_main
      (on_get_toward_publishers
        { s with interests := alistSet s.interests g.label (alistSet bucket g.client g) }
        g now)
      g now)
    g now

/-- Node.on_get (lines 993-1047): create the label bucket when absent and
reject interests whose eol does not strictly exceed the stored one. -/
def on_get (s : NodeState) (g : GetItem) (now : Int) : NodeState :=
  let s1 := if (alookup s.interests g.label).isNone
    then { s with interests := alistSet s.interests g.label [] } else s
  let bucket := (alookup s1.interests g.label).getD []
  match alookup bucket g.client with
  | some stored =>
    if g.eol ≤ stored.eol then s1 else on_get_accept s1 g now bucket
  | none => on_get_accept s1 g now bucket

/-- The interest-timer expiry callback inside on_get (lines 1010-1015):
delete the interest and drop the label bucket once it becomes empty. -/
def on_interest_timeout (s : NodeState) (label client : String) : NodeState :=
  match alookup s.interests label with
  | some bucket =>
    let b1 := aerase bucket client
    if b1.isEmpty then { s with interests := aerase s.interests label }
    else { s with interests := alistSet s.interests label b1 }
  | none => s

/-- The forwarding loop of on_set (lines 1073-1082): enqueue a cloned
single-destination set item towards every dst client other than our own
client (the previous pending future, if any, is signalled outside the
state; the freshly stored entry keeps the incoming item's absent one). -/
def on_set_forward (s : NodeState) (it : SetItem) (now : Int) : NodeState :=
  it.dst.foldl (fun st tc =>
    if (match st.advert with
        | none => true
        | some own => decide (own.client ≠ tc.2)) then
      { st with sendQueue := st.sendQueue ++
          [⟨now + tc.1, some tc.2, (alookup st.routes tc.2).getD [],
            QItem.set ⟨it.label, it.data, it.«at», [(tc.1, tc.2)], 0, false⟩⟩] }
    else st) s

/-- The accept path of on_set: store the entry preserving the previous
`last`, then forward clones towards the dst clients. -/
def on_set_accept (s : NodeState) (it : SetItem) (now : Int) (last : Int) : NodeState :=
  on_set_forward
    { s with contentStore := alistSet s.contentStore it.label { it with last := last } }
    it now

/-- Node.on_set (lines 1049-1082): ignore publications whose `at` does not
strictly exceed the stored one. -/
def on_set (s : NodeState) (it : SetItem) (now : Int) : NodeState :=
  match alookup s.contentStore it.label with
  | some stored =>
    if it.«at» ≤ stored.«at» then s else on_set_accept s it now stored.last
  | none => on_set_accept s it now 0

/-- The content-store initialisation inside Node.get (lines 438-439):
create an empty entry `SetItem(label, None, 0, [])` when absent. -/
def get_local_init (s : NodeState) (label : String) : NodeState :=
  if (alookup s.contentStore label).isNone
  then { s with contentStore := alistSet s.contentStore label ⟨label, none, 0, [], 0, false⟩ }
  else s

/-- The future creation inside Node.get (lines 447-451): mark a pending
local waiter on the label's entry. -/
def get_create_future (s : NodeState) (label : String) : NodeState :=
  match alookup s.contentStore label with
  | some cs => { s with contentStore := alistSet s.contentStore label { cs with fulfil := true } }
  | none => s

/-- The consumption step of Node.get (line 472): record the newly
returned value, `content_store[label].last = content_store[label].at`. -/
def get_consume (s : NodeState) (label : String) : NodeState :=
  match alookup s.contentStore label with
  | some cs => { s with contentStore := alistSet s.contentStore label { cs with last := cs.«at» } }
  | none => s

/-- Message.from_dict (lines 273-277): raise ValueError when the version
string differs from VERSION (items are modelled as already decoded; the
version gate is checked before any item is handed to a handler). -/
def msgFromDict (d : MsgDict) : Except String (List WireItem) :=
  if d.v ≠ VERSION then Except.error "Message version unsupported"
  else Except.ok d.items

/-- Node.on_message (lines 872-903): decode, drop the whole message on a
decode error, otherwise dispatch the items in the fixed order
peer, advert, then get/set. -/
def on_message (s : NodeState) (addr : Addr) (d : MsgDict) (now : Int) : NodeState :=
  match msgFromDict d with
  | Except.error _ => s
  | Except.ok items =>
    let s1 := items.foldl (fun st it =>
      match it with
      | WireItem.peer e => on_peer st addr e
      | _ => st) s
    let s2 := items.foldl (fun st it =>
      match it with
      | WireItem.advert a => on_advert st addr a now
      | _ => st) s1
    items.foldl (fun st it =>
      match it with
      | WireItem.get g => on_get st g now
      | WireItem.set l dt a c => on_set st ⟨l, dt, a, c, 0, false⟩ now
      | _ => st) s2

/-- One table-mutating operation of the node: the four item handlers, the
three timer expiries (peer, client advert, interest), the local steps of
the Node.get client API, and a full message delivery.  (The batch
flushers only consume the queues and never touch the content store or
tables.) -/
inductive Step : NodeState → NodeState → Prop where
  | peer (s : NodeState) (addr : Addr) (eol : Int) : Step s (on_peer s addr eol)
  | peerTimeout (s : NodeState) (addr : Addr) : Step s (on_peer_timeout s addr)
  | advert (s : NodeState) (addr : Addr) (a : AdvertItem) (now : Int) :
      Step s (on_advert s addr a now)
  | clientTimeout (s : NodeState) (client : String) :
      Step s (on_client_timeout s client)
  | get (s : NodeState) (g : GetItem) (now : Int) : Step s (on_get s g now)
  | set (s : NodeState) (it : SetItem) (now : Int) : Step s (on_set s it now)
  | interestTimeout (s : NodeState) (label client : String) :
      Step s (on_interest_timeout s label client)
  | getInit (s : NodeState) (label : String) : Step s (get_local_init s label)
  | getFuture (s : NodeState) (label : String) : Step s (get_create_future s label)
  | getConsume (s : NodeState) (label : String) : Step s (get_consume s label)
  | message (s : NodeState) (addr : Addr) (d : MsgDict) (now : Int) :
      Step s (on_message s addr d now)

-- ------------------------------------------------------------------
-- Wire codec (src/tcdicn.py lines 69-283), as used by batch_broadcast
-- ------------------------------------------------------------------

/-- A lowercase hexadecimal digit, as in Python's backslash-u escapes. -/
def hexDigit (n : Nat) : Char :=
  if n < 10 then Char.ofNat (48 + n) else Char.ofNat (87 + n)

/-- Four lowercase hexadecimal digits. -/
def hex4 (n : Nat) : String :=
  String.mk [hexDigit (n / 4096 % 16), hexDigit (n / 256 % 16),
             hexDigit (n / 16 % 16), hexDigit (n % 16)]

/-- Escaping of one character in `json.dumps` (default ensure_ascii:
printable ASCII except quote and backslash is kept, everything else is
escaped, non-BMP characters as surrogate pairs). -/
def jsonEscapeChar (c : Char) : String :=
  if c = '"' then "\\\""
  else if c = '\\' then "\\\\"
  else if c.toNat = 8 then "\\b"
  else if c.toNat = 9 then "\\t"
  else if c.toNat = 10 then "\\n"
  else if c.toNat = 12 then "\\f"
  else if c.toNat = 13 then "\\r"
  else if c.toNat < 32 ∨ 127 ≤ c.toNat then
    if c.toNat < 65536 then "\\u" ++ hex4 c.toNat
    else
      "\\u" ++ hex4 (55296 + (c.toNat - 65536) / 1024) ++
      "\\u" ++ hex4 (56320 + (c.toNat - 65536) % 1024)
  else String.singleton c

/-- A JSON string literal. -/
def jsonString (s : String) : String :=
  "\"" ++ String.join (s.data.map jsonEscapeChar) ++ "\""

/-- A JSON array with the compact `","` separator of `encode`. -/
def jsonList (elems : List String) : String :=
  "[" ++ String.intercalate "," elems ++ "]"

/-- A nullable JSON string (the `d` field of a set item). -/
def jsonOptString : Option String → String
  | none => "null"
  | some s => jsonString s

/-- MessageItem.to_dict composed with `encode` (json.dumps with compact
separators, insertion-ordered keys); timestamps and scores print as
integers in this model. -/
def itemJson : WireItem → String
  | WireItem.peer e =>
    "\x7b\"t\":\"p\",\"e\":" ++ toString e ++ "\x7d"
  | WireItem.advert a =>
    "\x7b\"t\":\"a\",\"c\":" ++ jsonString a.client ++
    ",\"l\":" ++ jsonList (a.labels.map jsonString) ++
    ",\"s\":" ++ toString a.score ++
    ",\"p\":" ++ toString a.ttp ++
    ",\"e\":" ++ toString a.eol ++ "\x7d"
  | WireItem.get g =>
    "\x7b\"t\":\"g\",\"c\":" ++ jsonString g.client ++
    ",\"l\":" ++ jsonString g.label ++
    ",\"a\":" ++ toString g.after ++
    ",\"p\":" ++ toString g.ttp ++
    ",\"e\":" ++ toString g.eol ++ "\x7d"
  | WireItem.set l d a c =>
    "\x7b\"t\":\"s\",\"l\":" ++ jsonString l ++
    ",\"d\":" ++ jsonOptString d ++
    ",\"a\":" ++ toString a ++
    ",\"c\":" ++ jsonList (c.map (fun tc =>
      "[" ++ toString tc.1 ++ "," ++ jsonString tc.2 ++ "]")) ++ "\x7d"

/-- Message.to_bytes: the serialized message for an item list. -/
def messageJson (items : List WireItem) : String :=
  "\x7b\"v\":\"0.2\",\"i\":" ++ jsonList (items.map itemJson) ++ "\x7d"

/-- The length in bytes of the serialized message (`len(msg.to_bytes())`). -/
def msgLen (items : List WireItem) : Nat :=
  (messageJson items).utf8ByteSize

-- ------------------------------------------------------------------
-- Broadcast batching (src/tcdicn.py lines 720-764)
-- ------------------------------------------------------------------

/-- The score perturbation applied to adverts before appending
(line 739-740): `item.score -= 1 + random.uniform(0, 0.5)`; the random
draw is a parameter `u` of the model. -/
def perturbItem (u : Int) : WireItem → WireItem
  | WireItem.advert a => WireItem.advert { a with score := a.score - (1 + u) }
  | it => it

/-- The pop loop of Node.batch_broadcast (lines 730-755): pop the head,
perturb advert scores, always accept the first item, accept later items
only while the encoded length stays below BROADCAST_CAPACITY, and push
the first refused item back.  `rand k` is the random draw of the k-th
iteration; returns the accepted items and the remaining queue in pop
order. -/
def batchBroadcastLoop (rand : Nat → Int) :
    Nat → List (Int × WireItem) → List WireItem →
    List WireItem × List (Int × WireItem)
  | _, [], items => (items, [])
  | k, (deadline, item) :: rest, items =>
    let item1 := perturbItem (rand k) item
    let newItems := items ++ [item1]
    if items.length ≠ 0 ∧ BROADCAST_CAPACITY ≤ msgLen newItems then
      (items, (deadline, item1) :: rest)
    else
      batchBroadcastLoop rand (k + 1) rest newItems

/-- Node.batch_broadcast (lines 720-764): the emitted message's item list
and the queue left behind, with the queue given in pop order. -/
def batch_broadcast (rand : Nat → Int) (queue : List (Int × WireItem)) :
    List WireItem × List (Int × WireItem) :=
  batchBroadcastLoop rand 0 queue []

-- ------------------------------------------------------------------
-- Unicast batching (src/tcdicn.py lines 645-697)
-- ------------------------------------------------------------------

/-- The preferred next hop of a queue entry (lines 660-661):
`routes[0]["addr"]` on a main node — IndexError (modelled as `none`) when
the route list is empty — and the local main node `("127.0.0.1", dport)`
on a non-main node. -/
def resolveNext (isMain : Bool) (dport : Nat) (e : SendEntry) : Option Addr :=
  if isMain then e.routes.head?.map Route.addr else some ("127.0.0.1", dport)

/-- The IndexError recovery (lines 662-666): push the entry back with
deadline + DEADLINE_EXT and its route list refreshed from the route table
when its target client is known there. -/
def extendEntry (rt : List (String × List Route)) (e : SendEntry) : SendEntry :=
  { e with deadline := e.deadline + DEADLINE_EXT,
           routes := match e.client with
             | some c => (alookup rt c).getD e.routes
             | none => e.routes }

/-- The pop loop of Node.batch_send (lines 652-678): drain the queue; the
first resolvable entry fixes the batch address, entries with the same
preferred next hop are accepted, others are collected as rejects with
unchanged deadline; entries without a next hop are collected extended.
Returns (batch address, accepted entries, rejected entries) in pop
order. -/
def sendLoop (isMain : Bool) (dport : Nat) (rt : List (String × List Route)) :
    List SendEntry → Option Addr → List SendEntry → List SendEntry →
    Option Addr × List SendEntry × List SendEntry
  | [], addr, accepted, rejects => (addr, accepted, rejects)
  | e :: rest, addr, accepted, rejects =>
    match resolveNext isMain dport e with
    | none => sendLoop isMain dport rt rest addr accepted (rejects ++ [extendEntry rt e])
    | some peer =>
      match addr with
      | none => sendLoop isMain dport rt rest (some peer) (accepted ++ [e]) rejects
      | some a =>
        if peer = a then sendLoop isMain dport rt rest (some a) (accepted ++ [e]) rejects
        else sendLoop isMain dport rt rest (some a) accepted (rejects ++ [e])

/-- Node.batch_send (lines 645-697): the queue after one flush and the
message sent, as a function of whether the TCP transport succeeded.
Rejects are always pushed back; on transport failure the accepted entries
are requeued with `routes[1:]` and the deadline extended by DEADLINE_EXT
on non-main nodes only (lines 686-694). -/
def batchSend (isMain : Bool) (dport : Nat) (rt : List (String × List Route))
    (queue : List SendEntry) (sendOk : Bool) :
    List SendEntry × Option (Addr × List QItem) :=
  match sendLoop isMain dport rt queue none [] [] with
  | (addr, accepted, rejects) =>
    match addr with
    | none => (rejects, none)
    | some a =>
      if sendOk then (rejects, some (a, accepted.map SendEntry.item))
      else
        (rejects ++ accepted.map (fun e =>
          { e with deadline := e.deadline + (if isMain then 0 else DEADLINE_EXT),
                   routes := e.routes.tail }), none)

-- ------------------------------------------------------------------
-- Object-identity view of the on_get fulfilment path (lines 1039-1047)
-- ------------------------------------------------------------------

/-- Node state with explicit object identity for content-store entries:
the heap holds the SetItem objects, the content store maps labels to heap
indices, and send-queue entries reference heap indices, so Python's
in-place mutation and aliasing are observable. -/
structure HState where
  heap : List SetItem := []
  contentStore : List (String × Nat) := []
  routes : List (String × List Route) := []
  sendQueue : List (Int × Option String × List Route × Nat) := []
deriving DecidableEq, Repr

/-- The fulfilment tail of Node.on_get (lines 1039-1047) over `HState`:
when the stored entry is newer than `g.after`, overwrite that entry's dst
field in place and enqueue the very same object. -/
def on_get_fulfil (s : HState) (g : GetItem) (now : Int) : HState :=
  match alookup s.contentStore g.label with
  | none => s
  | some p =>
    match s.heap[p]? with
    | none => s
    | some obj =>
      if g.after < obj.«at» then
        { s with heap := s.heap.set p { obj with dst := [(g.ttp, g.client)] },
                 sendQueue := s.sendQueue ++
                   [(now + g.ttp, some g.client,
                     (alookup s.routes g.client).getD [], p)] }
      else s

-- ------------------------------------------------------------------
-- The decryption tail of Node.get (src/tcdicn.py lines 471-482)
-- ------------------------------------------------------------------

/-- A Python value returned by Node.get: either a string or an un-awaited
coroutine object (calling an async def in Python only builds the
coroutine; its body does not run until awaited). -/
inductive PyReturn where
  | str (s : String)
  | coroutineObj (label : String) (ttl tpf ttp : Int) (group : Option String)
deriving DecidableEq, Repr

/-- The tail of Node.get once new data has arrived (lines 471-482).
`label` is the label Node.get works with at that point: for a group get it
is already namespaced to `group ++ "//" ++ original`.  `decryptFn` models
the base64 decode plus Fernet decryption of lines 476-477, returning
`none` on InvalidToken.  On InvalidToken the code executes
`data = self.get(label, ttl, tpf, ttp, group)` without awaiting, so the
value returned to the caller is the coroutine object itself. -/
def getDecryptTail (decryptFn : String → Option String) (group : Option String)
    (label : String) (ttl tpf ttp : Int) (data : String) : PyReturn :=
  match group with
  | none => PyReturn.str data
  | some _ =>
    match decryptFn data with
    | some plain => PyReturn.str plain
    | none => PyReturn.coroutineObj label ttl tpf ttp group

-- ------------------------------------------------------------------
-- Invariant predicates and concrete example inputs
-- ------------------------------------------------------------------

/-- The route-list invariant of the spec: at most one entry per next-hop
address, sorted by score descending. -/
def RoutesInv (rs : List Route) : Prop :=
  (rs.map Route.addr).Nodup ∧ rs.Pairwise (fun r1 r2 => r2.score ≤ r1.score)

/-- The route-list invariant over every client's route list. -/
def StateRoutesInv (s : NodeState) : Prop :=
  ∀ c rs, alookup s.routes c = some rs → RoutesInv rs

/-- The uniqueness half of the route invariant alone: every client's route
list holds each next-hop address at most once. -/
def RoutesAddrNodup (s : NodeState) : Prop :=
  ∀ c rs, alookup s.routes c = some rs → (rs.map Route.addr).Nodup

/-- Content-store monotonicity between two states: every stored entry
survives (possibly replaced) with an `at` that never decreases. -/
def StoreAtMono (s t : NodeState) : Prop :=
  ∀ L e, alookup s.contentStore L = some e →
    ∃ e2, alookup t.contentStore L = some e2 ∧ e.«at» ≤ e2.«at»

/-- An empty just-started node. -/
def exNode : NodeState := {}

/-- A sender address used by the concrete examples. -/
def exAddr : Addr := ("192.168.0.7", 33333)

/-- First advert of the C7 counterexample: client "c" with score 1, eol 5. -/
def exAdvert1 : AdvertItem := ⟨"c", [], 1, 1, 5⟩

/-- Second advert of the C7 counterexample: same client, score 2, eol 10. -/
def exAdvert2 : AdvertItem := ⟨"c", [], 2, 1, 10⟩

/-- The node state after receiving exAdvert1 then exAdvert2 from exAddr. -/
def exNodeC7 : NodeState :=
  on_advert (on_advert exNode exAddr exAdvert1 0) exAddr exAdvert2 0

/-- A node that stores content "hello" on label "lab" at time 50. -/
def exNodeStore : NodeState :=
  { contentStore := [("lab", ⟨"lab", some "hello", 50, [], 20, false⟩)] }

/-- A node with one known peer whose eol is 70. -/
def exNodePeer : NodeState := { peers := [(exAddr, 70)] }

/-- A node holding a stored interest on ("lab", "cli") with eol 90. -/
def exNodeInterest : NodeState :=
  { interests := [("lab", [("cli", ⟨"cli", "lab", 0, 1, 90⟩)])] }

/-- A heap-state with one stored content object for label "lab". -/
def exHState : HState :=
  { heap := [⟨"lab", some "x", 50, [(3, "other")], 0, false⟩],
    contentStore := [("lab", 0)],
    routes := [("cli", [⟨exAddr, 4⟩])],
    sendQueue := [] }

/-- A unicast queue with two entries towards different next hops and one
entry with no route, used to exercise batch_send concretely. -/
def exSendQueue : List SendEntry :=
  [⟨5, some "c1", [⟨("10.0.0.1", 33333), 9⟩, ⟨("10.0.0.2", 33333), 8⟩], QItem.get ⟨"c0", "lab", 0, 1, 9⟩⟩,
   ⟨6, some "c2", [], QItem.get ⟨"c0", "lab2", 0, 1, 9⟩⟩,
   ⟨7, some "c3", [⟨("10.0.0.3", 33333), 7⟩], QItem.get ⟨"c0", "lab3", 0, 1, 9⟩⟩]

-- ------------------------------------------------------------------
-- Theorems
-- ------------------------------------------------------------------

theorem alookup_alistSet_self {α β : Type} [DecidableEq α]
    (l : List (α × β)) (k : α) (v : β) : alookup (alistSet l k v) k = some v := by
  induction l with
  | nil => simp [alistSet, alookup]
  | cons h t ih =>
    by_cases hk : k = h.1
    · simp [alistSet, hk, alookup]
    · simp [alistSet, hk, alookup, ih]

theorem alookup_alistSet_ne {α β : Type} [DecidableEq α]
    (l : List (α × β)) (k k' : α) (v : β) (h : k' ≠ k) :
    alookup (alistSet l k v) k' = alookup l k' := by
  induction l with
  | nil => simp [alistSet, alookup, h]
  | cons hd t ih =>
    by_cases hk : k = hd.1
    · subst hk
      simp [alistSet, alookup, h]
    · by_cases hk' : k' = hd.1
      · simp [alistSet, hk, alookup, hk']
      · simp [alistSet, hk, alookup, hk', ih]

theorem alistSet_eq_self {α β : Type} [DecidableEq α]
    (l : List (α × β)) (k : α) (v : β) (h : alookup l k = some v) :
    alistSet l k v = l := by
  induction l with
  | nil => simp [alookup] at h
  | cons hd t ih =>
    by_cases hk : k = hd.1
    · subst hk
      simp [alookup] at h
      simp [alistSet, ← h]
    · simp [alookup, hk] at h
      simp [alistSet, hk, ih h]

theorem alookup_alistSet_cases {α β : Type} [DecidableEq α]
    (l : List (α × β)) (k k' : α) (v v' : β)
    (h : alookup (alistSet l k v) k' = some v') :
    (k' = k ∧ v' = v) ∨ alookup l k' = some v' := by
  by_cases hk : k' = k
  · subst hk
    rw [alookup_alistSet_self] at h
    exact Or.inl ⟨rfl, (Option.some_inj.mp h).symm⟩
  · rw [alookup_alistSet_ne l k k' v hk] at h
    exact Or.inr h

theorem alookup_aerase_ne {α β : Type} [DecidableEq α]
    (l : List (α × β)) (k k' : α) (h : k' ≠ k) :
    alookup (aerase l k) k' = alookup l k' := by
  induction l with
  | nil => simp [aerase]
  | cons hd t ih =>
    by_cases hk : k = hd.1
    · subst hk
      simp [aerase, alookup, h, ih]
    · by_cases hk' : k' = hd.1
      · simp [aerase, hk, alookup, hk']
      · simp [aerase, hk, alookup, hk', ih]

theorem alookup_aerase_self {α β : Type} [DecidableEq α]
    (l : List (α × β)) (k : α) : alookup (aerase l k) k = none := by
  induction l with
  | nil => simp [aerase, alookup]
  | cons hd t ih =>
    by_cases hk : k = hd.1
    · subst hk
      simpa [aerase] using ih
    · simp [aerase, hk, alookup, ih]

/-- Lookup through a key-preserving value transformation of every binding. -/
theorem alookup_map_value {α β γ : Type} [DecidableEq α]
    (l : List (α × β)) (f : β → γ) (k : α) :
    alookup (l.map (fun kv => (kv.1, f kv.2))) k = (alookup l k).map f := by
  induction l with
  | nil => simp [alookup]
  | cons hd t ih =>
    by_cases hk : k = hd.1
    · simp [alookup, hk]
    · simp [alookup, hk, ih]

/-- Projection of a fold is unchanged when every step preserves it. -/
theorem foldl_proj_eq {α σ π : Type} (proj : σ → π) (f : σ → α → σ)
    (h : ∀ s x, proj (f s x) = proj s) :
    ∀ (l : List α) (s : σ), proj (l.foldl f s) = proj s := by
  intro l
  induction l with
  | nil => intro s; rfl
  | cons hd t ih => intro s; rw [List.foldl_cons, ih, h]


-- ------------------------------------------------------------------
-- Frame lemmas: which fields each handler stage can touch
-- ------------------------------------------------------------------

theorem on_get_toward_publishers_proj {π : Type} (proj : NodeState → π)
    (hQ : ∀ st q, proj { st with sendQueue := q } = proj st)
    (s : NodeState) (g : GetItem) (now : Int) :
    proj (on_get_toward_publishers s g now) = proj s := by
  unfold on_get_toward_publishers
  refine foldl_proj_eq proj _ ?_ s.clients s
  intro st kv
  split
  · exact hQ _ _
  · rfl

theorem on_get_toward_main_proj {π : Type} (proj : NodeState → π)
    (hQ : ∀ st q, proj { st with sendQueue := q } = proj st)
    (s : NodeState) (g : GetItem) (now : Int) :
    proj (on_get_toward_main s g now) = proj s := by
  unfold on_get_toward_main
  split
  · rfl
  · exact hQ _ _

theorem on_get_fulfil_local_proj {π : Type} (proj : NodeState → π)
    (hCQ : ∀ st c q, proj { st with contentStore := c, sendQueue := q } = proj st)
    (s : NodeState) (g : GetItem) (now : Int) :
    proj (on_get_fulfil_local s g now) = proj s := by
  unfold on_get_fulfil_local
  cases alookup s.contentStore g.label with
  | none => rfl
  | some cs =>
    by_cases hlt : g.after < cs.«at»
    · simp only [hlt, if_true]
      exact hCQ _ _ _
    · simp only [hlt, if_false]

theorem on_get_accept_proj {π : Type} (proj : NodeState → π)
    (hQ : ∀ st q, proj { st with sendQueue := q } = proj st)
    (hI : ∀ st i, proj { st with interests := i } = proj st)
    (hCQ : ∀ st c q, proj { st with contentStore := c, sendQueue := q } = proj st)
    (s : NodeState) (g : GetItem) (now : Int) (bucket : List (String × GetItem)) :
    proj (on_get_accept s g now bucket) = proj s := by
  unfold on_get_accept
  rw [on_get_fulfil_local_proj proj hCQ, on_get_toward_main_proj proj hQ,
      on_get_toward_publishers_proj proj hQ, hI]

theorem on_get_proj {π : Type} (proj : NodeState → π)
    (hQ : ∀ st q, proj { st with sendQueue := q } = proj st)
    (hI : ∀ st i, proj { st with interests := i } = proj st)
    (hCQ : ∀ st c q, proj { st with contentStore := c, sendQueue := q } = proj st)
    (s : NodeState) (g : GetItem) (now : Int) :
    proj (on_get s g now) = proj s := by
  unfold on_get
  split
  · dsimp only
    split
    · split
      · rw [hI]
      · rw [on_get_accept_proj proj hQ hI hCQ, hI]
    · rw [on_get_accept_proj proj hQ hI hCQ, hI]
  · dsimp only
    split
    · split
      · rfl
      · rw [on_get_accept_proj proj hQ hI hCQ]
    · rw [on_get_accept_proj proj hQ hI hCQ]

theorem on_set_forward_proj {π : Type} (proj : NodeState → π)
    (hQ : ∀ st q, proj { st with sendQueue := q } = proj st)
    (s : NodeState) (it : SetItem) (now : Int) :
    proj (on_set_forward s it now) = proj s := by
  unfold on_set_forward
  refine foldl_proj_eq proj _ ?_ it.dst s
  intro st tc
  split
  · exact hQ _ _
  · rfl

theorem on_set_accept_proj {π : Type} (proj : NodeState → π)
    (hQ : ∀ st q, proj { st with sendQueue := q } = proj st)
    (hS : ∀ st c, proj { st with contentStore := c } = proj st)
    (s : NodeState) (it : SetItem) (now : Int) (last : Int) :
    proj (on_set_accept s it now last) = proj s := by
  unfold on_set_accept
  rw [on_set_forward_proj proj hQ, hS]

theorem on_set_proj {π : Type} (proj : NodeState → π)
    (hQ : ∀ st q, proj { st with sendQueue := q } = proj st)
    (hS : ∀ st c, proj { st with contentStore := c } = proj st)
    (s : NodeState) (it : SetItem) (now : Int) :
    proj (on_set s it now) = proj s := by
  unfold on_set
  split
  · split
    · rfl
    · rw [on_set_accept_proj proj hQ hS]
  · rw [on_set_accept_proj proj hQ hS]

theorem on_advert_propagate_proj {π : Type} (proj : NodeState → π)
    (hQ : ∀ st q, proj { st with sendQueue := q } = proj st)
    (s : NodeState) (a : AdvertItem) (now : Int) (pl : List String) :
    proj (on_advert_propagate s a now pl) = proj s := by
  unfold on_advert_propagate
  refine foldl_proj_eq proj _ ?_ a.labels s
  intro st label
  split
  · rfl
  · cases alookup st.interests label with
    | none => rfl
    | some bucket =>
      refine foldl_proj_eq proj _ ?_ bucket st
      intro st2 kv
      exact hQ _ _

theorem on_advert_accept_proj {π : Type} (proj : NodeState → π)
    (hQ : ∀ st q, proj { st with sendQueue := q } = proj st)
    (hB : ∀ st q, proj { st with broadcastQueue := q } = proj st)
    (s : NodeState) (a : AdvertItem) (now : Int) (pl : List String) :
    proj (on_advert_accept s a now pl) =
      proj { s with clients := alistSet s.clients a.client a } := by
  unfold on_advert_accept
  rw [hB, on_advert_propagate_proj proj hQ]

theorem on_advert_core_proj {π : Type} (proj : NodeState → π)
    (hQ : ∀ st q, proj { st with sendQueue := q } = proj st)
    (hB : ∀ st q, proj { st with broadcastQueue := q } = proj st)
    (hR : ∀ st r, proj { st with routes := r } = proj st)
    (hC : ∀ st c, proj { st with clients := c } = proj st)
    (s : NodeState) (addr : Addr) (a : AdvertItem) (now : Int) :
    proj (on_advert_core s addr a now) = proj s := by
  unfold on_advert_core
  dsimp only
  split
  · split
    · exact hR _ _
    · rw [on_advert_accept_proj proj hQ hB, hC, hR]
  · rw [on_advert_accept_proj proj hQ hB, hC, hR]

theorem on_advert_proj {π : Type} (proj : NodeState → π)
    (hQ : ∀ st q, proj { st with sendQueue := q } = proj st)
    (hB : ∀ st q, proj { st with broadcastQueue := q } = proj st)
    (hR : ∀ st r, proj { st with routes := r } = proj st)
    (hC : ∀ st c, proj { st with clients := c } = proj st)
    (hP : ∀ st p, proj { st with peers := p } = proj st)
    (s : NodeState) (addr : Addr) (a : AdvertItem) (now : Int) :
    proj (on_advert s addr a now) = proj s := by
  unfold on_advert
  have hs1 : proj (if (alookup s.peers addr).isNone then on_peer s addr a.eol else s)
      = proj s := by
    split
    · exact hP _ _
    · rfl
  dsimp only
  split
  · split
    · exact hs1
    · rw [on_advert_core_proj proj hQ hB hR hC, hs1]
  · rw [on_advert_core_proj proj hQ hB hR hC, hs1]

theorem on_interest_timeout_proj {π : Type} (proj : NodeState → π)
    (hI : ∀ st i, proj { st with interests := i } = proj st)
    (s : NodeState) (label client : String) :
    proj (on_interest_timeout s label client) = proj s := by
  unfold on_interest_timeout
  split
  · dsimp only
    split
    · exact hI _ _
    · exact hI _ _
  · rfl

-- ------------------------------------------------------------------
-- Route list lemmas
-- ------------------------------------------------------------------

theorem updateRouteList_map_addr (rs : List Route) (addr : Addr) (sc : Int) :
    (updateRouteList rs addr sc).map Route.addr =
      if addr ∈ rs.map Route.addr then rs.map Route.addr
      else rs.map Route.addr ++ [addr] := by
  induction rs with
  | nil => simp [updateRouteList]
  | cons r t ih =>
    by_cases h : r.addr = addr
    · simp [updateRouteList, h]
    · have h2 : ¬ (addr = r.addr) := fun e => h e.symm
      simp only [updateRouteList, h, if_false, List.map_cons, List.mem_cons, h2, false_or, ih]
      split <;> simp

theorem updateRouteList_nodup (rs : List Route) (addr : Addr) (sc : Int)
    (h : (rs.map Route.addr).Nodup) :
    ((updateRouteList rs addr sc).map Route.addr).Nodup := by
  rw [updateRouteList_map_addr]
  split
  · exact h
  · next hmem =>
    rw [List.nodup_append]
    exact ⟨h, List.nodup_singleton addr, by simpa [List.disjoint_singleton] using hmem⟩

theorem updateRouteList_mem_addr (rs : List Route) (addr : Addr) (sc : Int) :
    addr ∈ (updateRouteList rs addr sc).map Route.addr := by
  rw [updateRouteList_map_addr]
  split
  · assumption
  · simp

theorem updateRouteList_score (rs : List Route) (addr : Addr) (sc : Int)
    (h : (rs.map Route.addr).Nodup) :
    ∀ r ∈ updateRouteList rs addr sc, r.addr = addr → r.score = sc := by
  induction rs with
  | nil =>
    intro r hr ha
    simp [updateRouteList] at hr
    subst hr
    rfl
  | cons x t ih =>
    intro r hr ha
    simp only [List.map_cons, List.nodup_cons] at h
    by_cases hx : x.addr = addr
    · rw [updateRouteList, if_pos hx] at hr
      rcases List.mem_cons.mp hr with hr | hr
      · subst hr; rfl
      · exfalso
        apply h.1
        rw [hx, ← ha]
        exact List.mem_map_of_mem Route.addr hr
    · rw [updateRouteList, if_neg hx] at hr
      rcases List.mem_cons.mp hr with hr | hr
      · subst hr; exact absurd ha hx
      · exact ih h.2 r hr ha

theorem updateRouteList_id (rs : List Route) (addr : Addr) (sc : Int)
    (hnodup : (rs.map Route.addr).Nodup)
    (hmem : addr ∈ rs.map Route.addr)
    (hsc : ∀ r ∈ rs, r.addr = addr → r.score = sc) :
    updateRouteList rs addr sc = rs := by
  induction rs with
  | nil => simp at hmem
  | cons x t ih =>
    simp only [List.map_cons, List.nodup_cons] at hnodup
    by_cases hx : x.addr = addr
    · have hscx : x.score = sc := hsc x (List.mem_cons_self x t) hx
      rw [updateRouteList, if_pos hx]
      cases x
      simp only at hscx
      simp [hscx]
    · rw [updateRouteList, if_neg hx]
      have hmem2 : addr ∈ t.map Route.addr := by
        rcases List.mem_cons.mp hmem with h | h
        · exact absurd h.symm hx
        · exact h
      rw [ih hnodup.2 hmem2 (fun r hr ha => hsc r (List.mem_cons_of_mem x hr) ha)]

theorem insertionSort_routeGe_sorted (rs : List Route) :
    (List.insertionSort routeGe rs).Pairwise (fun r1 r2 => r2.score ≤ r1.score) :=
  List.sorted_insertionSort routeGe rs

theorem insertionSort_routeGe_self (rs : List Route)
    (h : rs.Pairwise (fun r1 r2 => r2.score ≤ r1.score)) :
    List.insertionSort routeGe rs = rs :=
  List.Sorted.insertionSort_eq h

/-- The updated-and-re-sorted route list of on_advert satisfies the route
invariant whenever the previous list held each address at most once. -/
theorem routesInv_update_sort (rs : List Route) (addr : Addr) (sc : Int)
    (h : (rs.map Route.addr).Nodup) :
    RoutesInv (List.insertionSort routeGe (updateRouteList rs addr sc)) := by
  constructor
  · have hperm := List.perm_insertionSort routeGe (updateRouteList rs addr sc)
    exact ((hperm.map Route.addr).nodup_iff).mpr (updateRouteList_nodup rs addr sc h)
  · exact insertionSort_routeGe_sorted _

-- ------------------------------------------------------------------
-- Content-store monotonicity lemmas
-- ------------------------------------------------------------------

/-- A property preserved by every fold step is preserved by the fold. -/
theorem foldl_inv {α σ : Type} (P : σ → Prop) (f : σ → α → σ)
    (h : ∀ s x, P s → P (f s x)) : ∀ (l : List α) (s : σ), P s → P (l.foldl f s) := by
  intro l
  induction l with
  | nil => intro s hs; exact hs
  | cons x t ih => intro s hs; exact ih _ (h s x hs)

theorem storeAtMono_of_eq {s t : NodeState} (h : t.contentStore = s.contentStore) :
    StoreAtMono s t := by
  intro L e hL
  refine ⟨e, ?_, le_refl _⟩
  rw [h]
  exact hL

theorem storeAtMono_trans {s t u : NodeState} (h1 : StoreAtMono s t)
    (h2 : StoreAtMono t u) : StoreAtMono s u := by
  intro L e hL
  obtain ⟨e2, hl2, hle2⟩ := h1 L e hL
  obtain ⟨e3, hl3, hle3⟩ := h2 L e2 hl2
  exact ⟨e3, hl3, le_trans hle2 hle3⟩

theorem storeAtMono_fulfil_local (s : NodeState) (g : GetItem) (now : Int) :
    StoreAtMono s (on_get_fulfil_local s g now) := by
  intro L e hL
  unfold on_get_fulfil_local
  cases hcs : alookup s.contentStore g.label with
  | none => exact ⟨e, hL, le_refl _⟩
  | some cs =>
    by_cases hlt : g.after < cs.«at»
    · simp only [hlt, if_true]
      by_cases hlab : L = g.label
      · subst hlab
        rw [hL] at hcs
        obtain rfl := Option.some_inj.mp hcs
        exact ⟨_, alookup_alistSet_self _ _ _, le_refl _⟩
      · refine ⟨e, ?_, le_refl _⟩
        rw [alookup_alistSet_ne _ _ _ _ hlab]
        exact hL
    · simp only [hlt, if_false]
      exact ⟨e, hL, le_refl _⟩

theorem storeAtMono_on_get_accept (s : NodeState) (g : GetItem) (now : Int)
    (bucket : List (String × GetItem)) : StoreAtMono s (on_get_accept s g now bucket) := by
  unfold on_get_accept
  refine storeAtMono_trans (storeAtMono_of_eq ?_) (storeAtMono_fulfil_local _ g now)
  rw [on_get_toward_main_proj NodeState.contentStore (fun _ _ => rfl),
      on_get_toward_publishers_proj NodeState.contentStore (fun _ _ => rfl)]

theorem storeAtMono_on_get (s : NodeState) (g : GetItem) (now : Int) :
    StoreAtMono s (on_get s g now) := by
  unfold on_get
  split
  · try dsimp only
    split
    · split
      · exact storeAtMono_of_eq rfl
      · refine storeAtMono_trans ?_ (storeAtMono_on_get_accept _ g now _)
        exact storeAtMono_of_eq rfl
    · refine storeAtMono_trans ?_ (storeAtMono_on_get_accept _ g now _)
      exact storeAtMono_of_eq rfl
  · try dsimp only
    split
    · split
      · exact storeAtMono_of_eq rfl
      · exact storeAtMono_on_get_accept _ g now _
    · exact storeAtMono_on_get_accept _ g now _

theorem storeAtMono_on_set_accept (s : NodeState) (it : SetItem) (now : Int) (last : Int)
    (hok : ∀ e, alookup s.contentStore it.label = some e → e.«at» ≤ it.«at») :
    StoreAtMono s (on_set_accept s it now last) := by
  intro L e hL
  unfold on_set_accept
  rw [on_set_forward_proj NodeState.contentStore (fun _ _ => rfl)]
  by_cases hlab : L = it.label
  · subst hlab
    exact ⟨_, alookup_alistSet_self _ _ _, hok e hL⟩
  · refine ⟨e, ?_, le_refl _⟩
    rw [alookup_alistSet_ne _ _ _ _ hlab]
    exact hL

theorem storeAtMono_on_set (s : NodeState) (it : SetItem) (now : Int) :
    StoreAtMono s (on_set s it now) := by
  unfold on_set
  cases hst : alookup s.contentStore it.label with
  | some stored =>
    by_cases hle : it.«at» ≤ stored.«at»
    · simp only [hle, if_true]
      exact storeAtMono_of_eq rfl
    · simp only [hle, if_false]
      apply storeAtMono_on_set_accept
      intro e he
      rw [hst] at he
      obtain rfl := Option.some_inj.mp he
      exact le_of_lt (lt_of_not_le hle)
  | none =>
    apply storeAtMono_on_set_accept
    intro e he
    rw [hst] at he
    cases he

theorem storeAtMono_get_local_init (s : NodeState) (label : String) :
    StoreAtMono s (get_local_init s label) := by
  intro L e hL
  unfold get_local_init
  split
  · next hnone =>
    by_cases hlab : L = label
    · subst hlab
      rw [Option.isNone_iff_eq_none] at hnone
      rw [hnone] at hL
      cases hL
    · refine ⟨e, ?_, le_refl _⟩
      rw [alookup_alistSet_ne _ _ _ _ hlab]
      exact hL
  · exact ⟨e, hL, le_refl _⟩

theorem storeAtMono_get_create_future (s : NodeState) (label : String) :
    StoreAtMono s (get_create_future s label) := by
  intro L e hL
  unfold get_create_future
  cases hcs : alookup s.contentStore label with
  | none => exact ⟨e, hL, le_refl _⟩
  | some cs =>
    by_cases hlab : L = label
    · subst hlab
      rw [hL] at hcs
      obtain rfl := Option.some_inj.mp hcs
      exact ⟨_, alookup_alistSet_self _ _ _, le_refl _⟩
    · refine ⟨e, ?_, le_refl _⟩
      rw [alookup_alistSet_ne _ _ _ _ hlab]
      exact hL

theorem storeAtMono_get_consume (s : NodeState) (label : String) :
    StoreAtMono s (get_consume s label) := by
  intro L e hL
  unfold get_consume
  cases hcs : alookup s.contentStore label with
  | none => exact ⟨e, hL, le_refl _⟩
  | some cs =>
    by_cases hlab : L = label
    · subst hlab
      rw [hL] at hcs
      obtain rfl := Option.some_inj.mp hcs
      exact ⟨_, alookup_alistSet_self _ _ _, le_refl _⟩
    · refine ⟨e, ?_, le_refl _⟩
      rw [alookup_alistSet_ne _ _ _ _ hlab]
      exact hL

theorem storeAtMono_on_advert (s : NodeState) (addr : Addr) (a : AdvertItem) (now : Int) :
    StoreAtMono s (on_advert s addr a now) :=
  storeAtMono_of_eq (on_advert_proj NodeState.contentStore (fun _ _ => rfl)
    (fun _ _ => rfl) (fun _ _ => rfl) (fun _ _ => rfl) (fun _ _ => rfl) s addr a now)

theorem storeAtMono_on_interest_timeout (s : NodeState) (label client : String) :
    StoreAtMono s (on_interest_timeout s label client) :=
  storeAtMono_of_eq (on_interest_timeout_proj NodeState.contentStore
    (fun _ _ => rfl) s label client)

theorem storeAtMono_on_message (s : NodeState) (addr : Addr) (d : MsgDict) (now : Int) :
    StoreAtMono s (on_message s addr d now) := by
  unfold on_message
  cases msgFromDict d with
  | error e => exact storeAtMono_of_eq rfl
  | ok items =>
    refine foldl_inv (fun t => StoreAtMono s t) _ ?_ items _
      (foldl_inv (fun t => StoreAtMono s t) _ ?_ items _
        (foldl_inv (fun t => StoreAtMono s t) _ ?_ items _
          (storeAtMono_of_eq rfl)))
    · intro t it ht
      cases it with
      | get g => exact storeAtMono_trans ht (storeAtMono_on_get t g now)
      | set l dt a c => exact storeAtMono_trans ht (storeAtMono_on_set t ⟨l, dt, a, c, 0, false⟩ now)
      | peer e => exact ht
      | advert a => exact ht
    · intro t it ht
      cases it with
      | advert a => exact storeAtMono_trans ht (storeAtMono_on_advert t addr a now)
      | peer e => exact ht
      | get g => exact ht
      | set l dt a c => exact ht
    · intro t it ht
      cases it with
      | peer e => exact storeAtMono_trans ht (storeAtMono_of_eq rfl)
      | advert a => exact ht
      | get g => exact ht
      | set l dt a c => exact ht

/-- Every table-mutating operation of the node preserves every stored
entry's `at` non-decreasingly. -/
theorem step_store_mono (s s2 : NodeState) (hstep : Step s s2) : StoreAtMono s s2 := by
  cases hstep with
  | peer addr eol => exact storeAtMono_of_eq rfl
  | peerTimeout addr => exact storeAtMono_of_eq rfl
  | advert addr a now => exact storeAtMono_on_advert s addr a now
  | clientTimeout client => exact storeAtMono_of_eq rfl
  | get g now => exact storeAtMono_on_get s g now
  | set it now => exact storeAtMono_on_set s it now
  | interestTimeout label client => exact storeAtMono_on_interest_timeout s label client
  | getInit label => exact storeAtMono_get_local_init s label
  | getFuture label => exact storeAtMono_get_create_future s label
  | getConsume label => exact storeAtMono_get_consume s label
  | message addr d now => exact storeAtMono_on_message s addr d now

/-- Node.on_set leaves the whole state unchanged when the stored entry's
`at` is at least the incoming one. -/
theorem on_set_old_noop (s : NodeState) (it : SetItem) (now : Int) (stored : SetItem)
    (hstored : alookup s.contentStore it.label = some stored)
    (hle : it.«at» ≤ stored.«at») : on_set s it now = s := by
  unfold on_set
  rw [hstored]
  simp [hle]

-- ------------------------------------------------------------------
-- Route-invariant preservation
-- ------------------------------------------------------------------

theorem stateRoutesInv_of_eq {s t : NodeState} (h : t.routes = s.routes)
    (hinv : StateRoutesInv s) : StateRoutesInv t := by
  intro c rs hc
  rw [h] at hc
  exact hinv c rs hc

theorem on_advert_core_routes (s : NodeState) (addr : Addr) (a : AdvertItem) (now : Int) :
    (on_advert_core s addr a now).routes =
      alistSet s.routes a.client
        (List.insertionSort routeGe
          (updateRouteList ((alookup s.routes a.client).getD []) addr a.score)) := by
  unfold on_advert_core
  dsimp only
  split
  · split
    · rfl
    · rw [on_advert_accept_proj NodeState.routes (fun _ _ => rfl) (fun _ _ => rfl)]
  · rw [on_advert_accept_proj NodeState.routes (fun _ _ => rfl) (fun _ _ => rfl)]

theorem on_advert_routes_cases (s : NodeState) (addr : Addr) (a : AdvertItem) (now : Int) :
    (on_advert s addr a now).routes = s.routes ∨
    (on_advert s addr a now).routes =
      alistSet s.routes a.client
        (List.insertionSort routeGe
          (updateRouteList ((alookup s.routes a.client).getD []) addr a.score)) := by
  unfold on_advert
  dsimp only
  have hr : (if (alookup s.peers addr).isNone then on_peer s addr a.eol else s).routes
      = s.routes := by
    split <;> rfl
  split
  · split
    · exact Or.inl hr
    · right
      rw [on_advert_core_routes, hr]
  · right
    rw [on_advert_core_routes, hr]

theorem stateRoutesInv_on_advert (s : NodeState) (addr : Addr) (a : AdvertItem) (now : Int)
    (hinv : StateRoutesInv s) : StateRoutesInv (on_advert s addr a now) := by
  rcases on_advert_routes_cases s addr a now with h | h
  · exact stateRoutesInv_of_eq h hinv
  · intro c rs hc
    rw [h] at hc
    rcases alookup_alistSet_cases _ _ _ _ _ hc with ⟨hceq, hrs⟩ | hold
    · subst hrs
      apply routesInv_update_sort
      cases h0 : alookup s.routes a.client with
      | none => simp
      | some rs0 => simpa using (hinv _ _ h0).1
    · exact hinv c rs hold

theorem stateRoutesInv_on_client_timeout (s : NodeState) (client : String)
    (hinv : StateRoutesInv s) : StateRoutesInv (on_client_timeout s client) := by
  intro c rs hc
  simp only [on_client_timeout] at hc
  by_cases hcc : c = client
  · subst hcc
    rw [alookup_aerase_self] at hc
    cases hc
  · rw [alookup_aerase_ne _ _ _ hcc] at hc
    exact hinv c rs hc

theorem stateRoutesInv_on_peer_timeout (s : NodeState) (addr : Addr)
    (hinv : StateRoutesInv s) : StateRoutesInv (on_peer_timeout s addr) := by
  intro c rs hc
  simp only [on_peer_timeout] at hc
  rw [alookup_map_value] at hc
  cases h0 : alookup s.routes c with
  | none =>
    rw [h0] at hc
    cases hc
  | some rs0 =>
    rw [h0] at hc
    simp only [Option.map_some'] at hc
    obtain rfl := Option.some_inj.mp hc
    obtain ⟨h1, h2⟩ := hinv c rs0 h0
    have hsub : (rs0.eraseP (fun r => decide (r.addr = addr))).Sublist rs0 :=
      List.eraseP_sublist rs0
    exact ⟨h1.sublist (hsub.map Route.addr), h2.sublist hsub⟩

theorem stateRoutesInv_on_message (s : NodeState) (addr : Addr) (d : MsgDict) (now : Int)
    (hinv : StateRoutesInv s) : StateRoutesInv (on_message s addr d now) := by
  unfold on_message
  cases msgFromDict d with
  | error e => exact hinv
  | ok items =>
    refine foldl_inv StateRoutesInv _ ?_ items _
      (foldl_inv StateRoutesInv _ ?_ items _
        (foldl_inv StateRoutesInv _ ?_ items _ hinv))
    · intro t it ht
      cases it with
      | get g =>
        exact stateRoutesInv_of_eq (on_get_proj NodeState.routes (fun _ _ => rfl)
          (fun _ _ => rfl) (fun _ _ _ => rfl) t g now) ht
      | set l dt a c =>
        exact stateRoutesInv_of_eq (on_set_proj NodeState.routes (fun _ _ => rfl)
          (fun _ _ => rfl) t _ now) ht
      | peer e => exact ht
      | advert a => exact ht
    · intro t it ht
      cases it with
      | advert a => exact stateRoutesInv_on_advert t addr a now ht
      | peer e => exact ht
      | get g => exact ht
      | set l dt a c => exact ht
    · intro t it ht
      cases it with
      | peer e => exact stateRoutesInv_of_eq rfl ht
      | advert a => exact ht
      | get g => exact ht
      | set l dt a c => exact ht

-- ------------------------------------------------------------------
-- C1: monotonic content store
-- ------------------------------------------------------------------

/-- C1: on_set replaces the stored entry for a label only when the
incoming item's `at` strictly exceeds the stored `at` — an incoming set
with `at` less than or equal to the stored `at` leaves the whole state
unchanged — and every table-mutating operation of the node keeps the
stored `at` per label monotonically non-decreasing, so the sequence of
`at` values accepted into the content store is strictly increasing. -/
theorem c1_content_monotonic :
    (∀ (s : NodeState) (it : SetItem) (now : Int) (stored : SetItem),
        alookup s.contentStore it.label = some stored →
        it.«at» ≤ stored.«at» → on_set s it now = s) ∧
    (∀ s s2 : NodeState, Step s s2 → StoreAtMono s s2) :=
  ⟨on_set_old_noop, step_store_mono⟩

/-- C1 witness: the node storing ("lab", at 50) ignores a concrete set
item carrying at 50, and a step keeps the stored at at least 50. -/
theorem c1_witness :
    on_set exNodeStore ⟨"lab", some "older", 50, [], 0, false⟩ 123 = exNodeStore :=
  c1_content_monotonic.1 exNodeStore ⟨"lab", some "older", 50, [], 0, false⟩ 123
    ⟨"lab", some "hello", 50, [], 20, false⟩ (by decide) (by decide)

-- ------------------------------------------------------------------
-- C4: route-list invariant
-- ------------------------------------------------------------------

/-- C4: at every observation point, every client's route list holds each
next-hop address at most once and is sorted by score descending: the
invariant is preserved by every handler step, in particular by on_advert
(update-in-place or append, then stable descending re-sort) and by
peer-timer expiry (which removes the expired address's route entries). -/
theorem c4_route_invariant (s s2 : NodeState) (hstep : Step s s2)
    (hinv : StateRoutesInv s) : StateRoutesInv s2 := by
  cases hstep with
  | peer addr eol => exact stateRoutesInv_of_eq rfl hinv
  | peerTimeout addr => exact stateRoutesInv_on_peer_timeout s addr hinv
  | advert addr a now => exact stateRoutesInv_on_advert s addr a now hinv
  | clientTimeout client => exact stateRoutesInv_on_client_timeout s client hinv
  | get g now =>
    exact stateRoutesInv_of_eq (on_get_proj NodeState.routes (fun _ _ => rfl)
      (fun _ _ => rfl) (fun _ _ _ => rfl) s g now) hinv
  | set it now =>
    exact stateRoutesInv_of_eq (on_set_proj NodeState.routes (fun _ _ => rfl)
      (fun _ _ => rfl) s it now) hinv
  | interestTimeout label client =>
    exact stateRoutesInv_of_eq (on_interest_timeout_proj NodeState.routes
      (fun _ _ => rfl) s label client) hinv
  | getInit label =>
    refine stateRoutesInv_of_eq ?_ hinv
    unfold get_local_init
    split <;> rfl
  | getFuture label =>
    refine stateRoutesInv_of_eq ?_ hinv
    unfold get_create_future
    cases alookup s.contentStore label <;> rfl
  | getConsume label =>
    refine stateRoutesInv_of_eq ?_ hinv
    unfold get_consume
    cases alookup s.contentStore label <;> rfl
  | message addr d now => exact stateRoutesInv_on_message s addr d now hinv

/-- C4 witness: the empty node trivially satisfies the invariant and keeps
it across a concrete advert delivery. -/
theorem c4_witness : StateRoutesInv (on_advert exNode exAddr exAdvert1 0) :=
  c4_route_invariant exNode _ (Step.advert exNode exAddr exAdvert1 0)
    (fun c rs hc => by simp [exNode, alookup] at hc)

-- ------------------------------------------------------------------
-- C7: re-delivery
-- ------------------------------------------------------------------

/-- Node.on_get leaves the whole state unchanged when a stored interest
for the same (label, client) has an eol at least the incoming one. -/
theorem on_get_old_noop (s : NodeState) (g : GetItem) (now : Int)
    (bucket : List (String × GetItem)) (stored : GetItem)
    (hbucket : alookup s.interests g.label = some bucket)
    (hstored : alookup bucket g.client = some stored)
    (hle : g.eol ≤ stored.eol) : on_get s g now = s := by
  unfold on_get
  rw [hbucket]
  simp only [Option.isNone_some, Bool.false_eq_true, if_false]
  rw [hbucket]
  simp only [Option.getD_some, hstored, hle, if_true]

theorem on_advert_peers_eq (s : NodeState) (addr : Addr) (a : AdvertItem) (now : Int) :
    (on_advert s addr a now).peers =
      (if (alookup s.peers addr).isNone then on_peer s addr a.eol else s).peers := by
  unfold on_advert
  dsimp only
  have hcore : ∀ t : NodeState, (on_advert_core t addr a now).peers = t.peers := fun t =>
    on_advert_core_proj NodeState.peers (fun _ _ => rfl) (fun _ _ => rfl)
      (fun _ _ => rfl) (fun _ _ => rfl) t addr a now
  split
  · split
    · rfl
    · exact hcore _
  · exact hcore _

theorem on_advert_peers_lookup (s : NodeState) (addr : Addr) (a : AdvertItem) (now : Int) :
    (alookup (on_advert s addr a now).peers addr).isNone = false := by
  rw [on_advert_peers_eq]
  split
  · simp [on_peer, alookup_alistSet_self]
  · next h =>
    cases hp : alookup s.peers addr with
    | none =>
      exfalso
      apply h
      rw [hp]
      rfl
    | some x => rfl

theorem on_advert_advert_eq (s : NodeState) (addr : Addr) (a : AdvertItem) (now : Int) :
    (on_advert s addr a now).advert = s.advert :=
  on_advert_proj NodeState.advert (fun _ _ => rfl) (fun _ _ => rfl) (fun _ _ => rfl)
    (fun _ _ => rfl) (fun _ _ => rfl) s addr a now

theorem on_advert_eq_own (s : NodeState) (addr : Addr) (a : AdvertItem) (now : Int)
    (own : AdvertItem) (hadv : s.advert = some own) (hown : own.client = a.client) :
    on_advert s addr a now =
      if (alookup s.peers addr).isNone then on_peer s addr a.eol else s := by
  unfold on_advert
  dsimp only
  have h1 : (if (alookup s.peers addr).isNone then on_peer s addr a.eol else s).advert
      = s.advert := by
    split <;> rfl
  rw [h1, hadv]
  dsimp only
  rw [if_pos hown]

theorem on_advert_eq_core (s : NodeState) (addr : Addr) (a : AdvertItem) (now : Int)
    (h : ∀ own, s.advert = some own → own.client ≠ a.client) :
    on_advert s addr a now =
      on_advert_core (if (alookup s.peers addr).isNone then on_peer s addr a.eol else s)
        addr a now := by
  unfold on_advert
  dsimp only
  have h1 : (if (alookup s.peers addr).isNone then on_peer s addr a.eol else s).advert
      = s.advert := by
    split <;> rfl
  rw [h1]
  cases hsadv : s.advert with
  | none => rfl
  | some own =>
    dsimp only
    rw [if_neg (h own hsadv)]

theorem on_advert_core_clients_eol (s : NodeState) (addr : Addr) (a : AdvertItem)
    (now : Int) :
    ∃ stored, alookup (on_advert_core s addr a now).clients a.client = some stored ∧
      a.eol ≤ stored.eol := by
  unfold on_advert_core
  dsimp only
  split
  · next stored heq =>
    by_cases hle : a.eol ≤ stored.eol
    · rw [if_pos hle]
      exact ⟨stored, heq, hle⟩
    · rw [if_neg hle]
      rw [on_advert_accept_proj NodeState.clients (fun _ _ => rfl) (fun _ _ => rfl)]
      exact ⟨a, alookup_alistSet_self _ _ _, le_refl _⟩
  · rw [on_advert_accept_proj NodeState.clients (fun _ _ => rfl) (fun _ _ => rfl)]
    exact ⟨a, alookup_alistSet_self _ _ _, le_refl _⟩

/-- Applying on_advert_core a second time with the same sender and advert
is a no-op: the route entry for the sender already carries the advert's
score (given unique next-hops), the list is already sorted, and the stored
client eol is at least the advert's. -/
theorem on_advert_core_idem (s : NodeState) (addr : Addr) (a : AdvertItem) (now now2 : Int)
    (hnodup : ∀ rs, alookup s.routes a.client = some rs → (rs.map Route.addr).Nodup) :
    on_advert_core (on_advert_core s addr a now) addr a now2 =
      on_advert_core s addr a now := by
  have hroutes := on_advert_core_routes s addr a now
  set c1 := on_advert_core s addr a now with hc1
  set rs1 := List.insertionSort routeGe
    (updateRouteList ((alookup s.routes a.client).getD []) addr a.score) with hrs1
  have hlook : alookup c1.routes a.client = some rs1 := by
    rw [hroutes]
    exact alookup_alistSet_self _ _ _
  have h0 : (((alookup s.routes a.client).getD []).map Route.addr).Nodup := by
    cases h : alookup s.routes a.client with
    | none => simp
    | some rs0 => simpa using hnodup rs0 h
  have hperm : rs1.Perm (updateRouteList ((alookup s.routes a.client).getD []) addr a.score) :=
    List.perm_insertionSort _ _
  have hupd : updateRouteList rs1 addr a.score = rs1 := by
    apply updateRouteList_id
    · exact ((hperm.map Route.addr).nodup_iff).mpr (updateRouteList_nodup _ addr a.score h0)
    · exact ((hperm.map Route.addr).mem_iff).mpr (updateRouteList_mem_addr _ addr a.score)
    · intro r hr ha
      exact updateRouteList_score _ addr a.score h0 r (hperm.subset hr) ha
  have hsort : List.insertionSort routeGe rs1 = rs1 :=
    insertionSort_routeGe_self rs1 (insertionSort_routeGe_sorted _)
  have hset : alistSet c1.routes a.client rs1 = c1.routes := alistSet_eq_self _ _ _ hlook
  obtain ⟨stored, hstored, hle⟩ := on_advert_core_clients_eol s addr a now
  unfold on_advert_core
  dsimp only
  rw [hlook]
  simp only [Option.getD_some]
  rw [hupd, hsort, hset]
  rw [hstored]
  dsimp only
  rw [if_pos hle]

/-- Re-applying the very same advert from the same sender is a no-op,
provided every route list holds each next-hop address at most once. -/
theorem on_advert_idem (s : NodeState) (addr : Addr) (a : AdvertItem) (now now2 : Int)
    (hnodup : RoutesAddrNodup s) :
    on_advert (on_advert s addr a now) addr a now2 = on_advert s addr a now := by
  have hpl := on_advert_peers_lookup s addr a now
  have hadv := on_advert_advert_eq s addr a now
  have hs1cases : (if (alookup (on_advert s addr a now).peers addr).isNone
      then on_peer (on_advert s addr a now) addr a.eol else on_advert s addr a now)
      = on_advert s addr a now := by
    simp [hpl]
  have hs1routes : (if (alookup s.peers addr).isNone then on_peer s addr a.eol else s).routes
      = s.routes := by
    split <;> rfl
  have hnodup1 : ∀ rs, alookup ((if (alookup s.peers addr).isNone
      then on_peer s addr a.eol else s)).routes a.client = some rs →
      (rs.map Route.addr).Nodup := by
    intro rs hrs
    rw [hs1routes] at hrs
    exact hnodup a.client rs hrs
  cases hsadv : s.advert with
  | some own =>
    by_cases hown : own.client = a.client
    · rw [on_advert_eq_own (on_advert s addr a now) addr a now2 own (hadv.trans hsadv) hown,
        hs1cases]
    · have hne : ∀ o, (on_advert s addr a now).advert = some o → o.client ≠ a.client := by
        intro o ho
        rw [hadv, hsadv] at ho
        obtain rfl := Option.some_inj.mp ho
        exact hown
      have hne0 : ∀ o, s.advert = some o → o.client ≠ a.client := by
        intro o ho
        rw [hsadv] at ho
        obtain rfl := Option.some_inj.mp ho
        exact hown
      rw [on_advert_eq_core (on_advert s addr a now) addr a now2 hne, hs1cases,
        on_advert_eq_core s addr a now hne0]
      exact on_advert_core_idem _ addr a now now2 hnodup1
  | none =>
    have hne : ∀ o, (on_advert s addr a now).advert = some o → o.client ≠ a.client := by
      intro o ho
      rw [hadv, hsadv] at ho
      cases ho
    have hne0 : ∀ o, s.advert = some o → o.client ≠ a.client := by
      intro o ho
      rw [hsadv] at ho
      cases ho
    rw [on_advert_eq_core (on_advert s addr a now) addr a now2 hne, hs1cases,
      on_advert_eq_core s addr a now hne0]
    exact on_advert_core_idem _ addr a now now2 hnodup1

/-- C7 counterexample: the claim fails for adverts.  Deliver advert
(client "c", score 1, eol 5) then (client "c", score 2, eol 10) from the
same peer; re-delivering the first advert — same item, same keys, older
eol than the stored entry — overwrites the route score back to 1 before
the eol check rejects it, so the state changes. -/
theorem c7_counterexample : on_advert exNodeC7 exAddr exAdvert1 5 ≠ exNodeC7 := by decide

/-- C7 (amended): re-delivering the same get or set item with the same or
an older eol/at than the stored entry leaves the node state unchanged, and
immediately re-applying the very same advert is also a no-op (given route
lists with unique next-hops); but re-delivering an advert that is older
than the stored entry still overwrites the sender's route-score entry, so
for adverts the no-op holds only when the sender's route entry already
carries the re-delivered score. -/
theorem c7_redelivery :
    (∀ (s : NodeState) (g : GetItem) (now : Int)
        (bucket : List (String × GetItem)) (stored : GetItem),
        alookup s.interests g.label = some bucket →
        alookup bucket g.client = some stored →
        g.eol ≤ stored.eol → on_get s g now = s) ∧
    (∀ (s : NodeState) (it : SetItem) (now : Int) (stored : SetItem),
        alookup s.contentStore it.label = some stored →
        it.«at» ≤ stored.«at» → on_set s it now = s) ∧
    (∀ (s : NodeState) (addr : Addr) (a : AdvertItem) (now now2 : Int),
        RoutesAddrNodup s →
        on_advert (on_advert s addr a now) addr a now2 = on_advert s addr a now) :=
  ⟨on_get_old_noop, on_set_old_noop, on_advert_idem⟩

/-- C7 witness: the node holding the interest ("lab", "cli", eol 90)
ignores a re-delivered interest with eol 80. -/
theorem c7_witness :
    on_get exNodeInterest ⟨"cli", "lab", 0, 1, 80⟩ 7 = exNodeInterest :=
  c7_redelivery.1 exNodeInterest ⟨"cli", "lab", 0, 1, 80⟩ 7
    [("cli", ⟨"cli", "lab", 0, 1, 90⟩)] ⟨"cli", "lab", 0, 1, 90⟩
    (by decide) (by decide) (by decide)

-- ------------------------------------------------------------------
-- C2: version gate
-- ------------------------------------------------------------------

/-- C2: for every received message whose version string is not exactly
"0.2", Message.from_dict raises, on_message catches the error and returns
before invoking any item handler, so the whole node state (peer table,
client table, routes, interests, content store and both queues) is
unchanged. -/
theorem c2_version_gate (s : NodeState) (addr : Addr) (d : MsgDict) (now : Int)
    (h : d.v ≠ VERSION) : on_message s addr d now = s := by
  simp [on_message, msgFromDict, h]

/-- C2 witness: a concrete message with version "0.3" leaves the empty
node unchanged. -/
theorem c2_version_gate_witness :
    on_message exNode exAddr ⟨"0.3", [WireItem.peer 5]⟩ 0 = exNode :=
  c2_version_gate exNode exAddr ⟨"0.3", [WireItem.peer 5]⟩ 0 (by decide)

-- ------------------------------------------------------------------
-- C8: group get on decryption failure
-- ------------------------------------------------------------------

/-- C8: when the received group data fails symmetric decryption
(InvalidToken), Node.get executes `data = self.get(label, ttl, tpf, ttp,
group)` without awaiting it, so the caller receives the un-awaited
coroutine object instead of a retried, decrypted string; the label handed
to that coroutine is moreover the already-namespaced one. -/
theorem c8_decrypt_failure_returns_coroutine :
    getDecryptTail (fun _ => none) (some "grp") "grp//lbl" 10 2 1 "badtoken" =
      PyReturn.coroutineObj "grp//lbl" 10 2 1 (some "grp") := rfl

-- ------------------------------------------------------------------
-- C9: on_peer replaces unconditionally
-- ------------------------------------------------------------------

/-- C9: on_peer unconditionally replaces the stored peer entry and its
expiry timer: even when the incoming eol is strictly earlier than the
stored one, the stored eol becomes the incoming one, so a peer's
lifetime can move backwards (unlike adverts, interests and sets). -/
theorem c9_peer_replaced_unconditionally (s : NodeState) (addr : Addr)
    (eolNew eolOld : Int) (hstored : alookup s.peers addr = some eolOld)
    (hback : eolNew < eolOld) :
    alookup (on_peer s addr eolNew).peers addr = some eolNew := by
  simp [on_peer, alookup_alistSet_self]

/-- C9 witness: the peer stored with eol 70 is moved back to eol 3. -/
theorem c9_witness :
    alookup (on_peer exNodePeer exAddr 3).peers exAddr = some 3 :=
  c9_peer_replaced_unconditionally exNodePeer exAddr 3 70 (by decide) (by decide)

-- ------------------------------------------------------------------
-- C10: on_get fulfilment mutates the stored entry in place
-- ------------------------------------------------------------------

/-- C10: when on_get is satisfiable from the local content store
(stored at > g.after), it overwrites the stored object's dst field in
place with [(g.ttp, g.client)] and enqueues that same object — the heap
index placed on the unicast queue is exactly the index the content store
maps the label to — while the content-store map and the entry's label,
data, at and last fields are unchanged. -/
theorem c10_fulfil_in_place (s : HState) (g : GetItem) (now : Int)
    (p : Nat) (obj : SetItem)
    (hp : alookup s.contentStore g.label = some p)
    (hobj : s.heap[p]? = some obj)
    (hnew : g.after < obj.«at») :
    (on_get_fulfil s g now).contentStore = s.contentStore ∧
    (on_get_fulfil s g now).heap[p]? = some { obj with dst := [(g.ttp, g.client)] } ∧
    (on_get_fulfil s g now).sendQueue = s.sendQueue ++
      [(now + g.ttp, some g.client, (alookup s.routes g.client).getD [], p)] := by
  have hlt : p < s.heap.length := by
    rcases List.getElem?_eq_some_iff.mp hobj with ⟨h1, _⟩
    exact h1
  simp [on_get_fulfil, hp, hobj, hnew, List.getElem?_set_self hlt]

/-- C10 witness: fulfilling a concrete interest on "lab" redirects the
stored object's dst and queues heap index 0, the stored index. -/
theorem c10_witness :
    (on_get_fulfil exHState ⟨"cli", "lab", 10, 2, 99⟩ 100).contentStore =
      exHState.contentStore ∧
    (on_get_fulfil exHState ⟨"cli", "lab", 10, 2, 99⟩ 100).heap[0]? =
      some ⟨"lab", some "x", 50, [(2, "cli")], 0, false⟩ ∧
    (on_get_fulfil exHState ⟨"cli", "lab", 10, 2, 99⟩ 100).sendQueue =
      exHState.sendQueue ++ [(102, some "cli", [⟨exAddr, 4⟩], 0)] := by
  simpa using c10_fulfil_in_place exHState ⟨"cli", "lab", 10, 2, 99⟩ 100 0
    ⟨"lab", some "x", 50, [(3, "other")], 0, false⟩ (by decide) (by decide) (by decide)

-- ------------------------------------------------------------------
-- C3: broadcast size bound
-- ------------------------------------------------------------------

/-- Loop invariant of batch_broadcast: the accumulated item list is a
singleton or empty, or it encodes strictly below the capacity. -/
theorem batchBroadcastLoop_inv (rand : Nat → Int) :
    ∀ (queue : List (Int × WireItem)) (k : Nat) (items : List WireItem),
      items.length ≤ 1 ∨ msgLen items < BROADCAST_CAPACITY →
      ((batchBroadcastLoop rand k queue items).1.length ≤ 1 ∨
        msgLen (batchBroadcastLoop rand k queue items).1 < BROADCAST_CAPACITY) := by
  intro queue
  induction queue with
  | nil =>
    intro k items h
    simpa [batchBroadcastLoop] using h
  | cons hd rest ih =>
    intro k items h
    rcases hd with ⟨deadline, item⟩
    rw [batchBroadcastLoop]
    split
    · exact h
    · next hcond =>
      apply ih
      rcases Decidable.not_and_iff_or_not.mp hcond with h0 | hlen
      · have : items = [] := by
          rcases items with _ | ⟨x, xs⟩
          · rfl
          · exact absurd (by simp) h0
        subst this
        exact Or.inl (by simp)
      · exact Or.inr (Nat.lt_of_not_le hlen)

/-- C3: after any broadcast flush, the emitted message's serialized length
is at most 512 bytes, or the message contains exactly one item: the
flusher always accepts the first popped item and accepts each later item
only when the encoded length stays below BROADCAST_CAPACITY, pushing the
first refused item back. -/
theorem c3_broadcast_size_bound (rand : Nat → Int) (queue : List (Int × WireItem)) :
    msgLen (batch_broadcast rand queue).1 ≤ BROADCAST_CAPACITY ∨
    (batch_broadcast rand queue).1.length = 1 := by
  have h := batchBroadcastLoop_inv rand queue 0 [] (Or.inl (by simp))
  rw [batch_broadcast]
  rcases h with h | h
  · rcases Nat.le_one_iff_eq_zero_or_eq_one.mp h with h0 | h1
    · left
      rw [List.length_eq_zero.mp h0]
      decide
    · exact Or.inr h1
  · exact Or.inl (Nat.le_of_lt h)

-- ------------------------------------------------------------------
-- C6 / C5: unicast batching
-- ------------------------------------------------------------------

/-- Tail of the batch_send pop loop once the batch address is fixed:
entries with the same preferred next hop are appended to the accepted
batch, all others to the rejects (extended when unresolvable). -/
theorem sendLoop_some (m : Bool) (d : Nat) (rt : List (String × List Route)) (a : Addr) :
    ∀ (q acc rej : List SendEntry),
      sendLoop m d rt q (some a) acc rej =
        (some a,
         acc ++ q.filter (fun e => resolveNext m d e = some a),
         rej ++ q.filterMap (fun e =>
           match resolveNext m d e with
           | none => some (extendEntry rt e)
           | some p => if p = a then none else some e)) := by
  intro q
  induction q with
  | nil => intro acc rej; simp [sendLoop]
  | cons e rest ih =>
    intro acc rej
    rw [sendLoop]
    cases hres : resolveNext m d e with
    | none =>
      rw [ih]
      simp [List.filter_cons, List.filterMap_cons, hres]
    | some p =>
      dsimp only
      by_cases hp : p = a
      · subst hp
        rw [if_pos rfl, ih]
        simp [List.filter_cons, List.filterMap_cons, hres]
      · rw [if_neg hp, ih]
        simp [List.filter_cons, List.filterMap_cons, hres, hp]

/-- Full characterization of the batch_send pop loop from an unset batch
address: the first resolvable entry fixes the target. -/
theorem sendLoop_characterization (m : Bool) (d : Nat) (rt : List (String × List Route)) :
    ∀ (q rej : List SendEntry),
      sendLoop m d rt q none [] rej =
        match q.findSome? (resolveNext m d) with
        | none => (none, [], rej ++ q.map (extendEntry rt))
        | some a =>
          (some a,
           q.filter (fun e => resolveNext m d e = some a),
           rej ++ q.filterMap (fun e =>
             match resolveNext m d e with
             | none => some (extendEntry rt e)
             | some p => if p = a then none else some e)) := by
  intro q
  induction q with
  | nil => intro rej; simp [sendLoop]
  | cons e rest ih =>
    intro rej
    rw [sendLoop]
    cases hres : resolveNext m d e with
    | none =>
      rw [ih]
      cases hfs : rest.findSome? (resolveNext m d) with
      | none => simp [List.findSome?_cons, hres, hfs, List.filter_cons, List.filterMap_cons]
      | some a => simp [List.findSome?_cons, hres, hfs, List.filter_cons, List.filterMap_cons]
    | some p =>
      dsimp only
      rw [sendLoop_some]
      simp [List.findSome?_cons, hres, List.filter_cons, List.filterMap_cons]

/-- C6: in a unicast flush, the first popped item whose preferred next-hop
resolves (routes[0].addr on a main node, the local main node on a non-main
node) fixes the batch target; a popped item is accepted into the batch
exactly when its preferred next-hop equals that target, every other
resolvable item is returned with unchanged deadline, and items popped on a
main node with an empty route list are pushed back with deadline +
DEADLINE_EXT and routes refreshed from the route table. -/
theorem c6_send_batching (m : Bool) (d : Nat) (rt : List (String × List Route))
    (q : List SendEntry) :
    sendLoop m d rt q none [] [] =
      match q.findSome? (resolveNext m d) with
      | none => (none, [], q.map (extendEntry rt))
      | some a =>
        (some a,
         q.filter (fun e => resolveNext m d e = some a),
         q.filterMap (fun e =>
           match resolveNext m d e with
           | none => some (extendEntry rt e)
           | some p => if p = a then none else some e)) := by
  rw [sendLoop_characterization]
  cases q.findSome? (resolveNext m d) <;> simp

/-- C5: on a transport failure during a unicast flush, every accepted item
is requeued with its route list shortened to routes[1:]; a main node keeps
the deadline unchanged while a non-main node extends it by DEADLINE_EXT
(10 seconds). -/
theorem c5_transport_failure_requeue (m : Bool) (d : Nat)
    (rt : List (String × List Route)) (q : List SendEntry) (e : SendEntry)
    (hacc : e ∈ (sendLoop m d rt q none [] []).2.1) :
    (m = true → { e with routes := e.routes.tail } ∈ (batchSend m d rt q false).1) ∧
    (m = false → { e with deadline := e.deadline + DEADLINE_EXT,
                          routes := e.routes.tail } ∈ (batchSend m d rt q false).1) := by
  rcases hL : sendLoop m d rt q none [] [] with ⟨addr, acc, rej⟩
  rw [hL] at hacc
  simp only at hacc
  cases addr with
  | none =>
    exfalso
    have hchar := sendLoop_characterization m d rt q []
    rw [hL] at hchar
    cases hfs : q.findSome? (resolveNext m d) with
    | none =>
      rw [hfs] at hchar
      simp only [Prod.mk.injEq] at hchar
      rw [hchar.2.1] at hacc
      exact (List.not_mem_nil e) hacc
    | some a =>
      rw [hfs] at hchar
      simp only [Prod.mk.injEq] at hchar
      exact Option.noConfusion hchar.1
  | some a =>
    have hq : (batchSend m d rt q false).1 =
        rej ++ acc.map (fun x =>
          { x with deadline := x.deadline + (if m then 0 else DEADLINE_EXT),
                   routes := x.routes.tail }) := by
      simp [batchSend, hL]
    constructor
    · intro hm
      subst hm
      rw [hq]
      apply List.mem_append_right
      have := List.mem_map_of_mem (fun x : SendEntry =>
        { x with deadline := x.deadline + (if true then 0 else DEADLINE_EXT),
                 routes := x.routes.tail }) hacc
      simpa using this
    · intro hm
      subst hm
      rw [hq]
      apply List.mem_append_right
      have := List.mem_map_of_mem (fun x : SendEntry =>
        { x with deadline := x.deadline + (if false then 0 else DEADLINE_EXT),
                 routes := x.routes.tail }) hacc
      simpa using this

/-- C5 witness: on a main node, the accepted head of the concrete queue is
requeued after a failed send with its first route dropped and an
unchanged deadline of 5. -/
theorem c5_witness :
    (⟨5, some "c1", [⟨("10.0.0.2", 33333), 8⟩], QItem.get ⟨"c0", "lab", 0, 1, 9⟩⟩ : SendEntry) ∈
      (batchSend true 33333 [] exSendQueue false).1 :=
  (c5_transport_failure_requeue true 33333 [] exSendQueue
    ⟨5, some "c1", [⟨("10.0.0.1", 33333), 9⟩, ⟨("10.0.0.2", 33333), 8⟩],
      QItem.get ⟨"c0", "lab", 0, 1, 9⟩⟩ (by decide)).1 rfl

end Tcdicn
